import Mathlib

/-!
# Shallow embedding of the `load_trk` streamline loaders

This file embeds the streamline indexing and extraction logic of
`load_trk_new.py`, `load_trk_newer.py`, `load_trk_no_numba.py` and
`load_trk_numba.py` and proves properties of the embedded code.

Modelling conventions:
* A TRK file is the fixed-size header (decoded externally by nibabel,
  represented by `Header`) followed by the payload.  Every length field,
  coordinate, scalar and property occupies one little-endian 32-bit word,
  so the payload is modelled as a `List Nat` of 32-bit word values
  (`words`), indexed from byte `hdr_size` of the file.  All seeks
  performed by the code are multiples of 4 bytes from `hdr_size`,
  so word granularity is exact.
* `struct.unpack('<i', ...)` reads a word as a signed int32 (`toInt32`);
  the numpy `uint32` views read the raw word value.
* The numeric plane (float32 coordinate values) is modelled by `ℚ`;
  extraction never performs any float arithmetic other than the affine
  map, which is rational arithmetic on the stored values.
-/

namespace LoadTrk

/-- TRK header fields used by the loaders, as produced by the external
nibabel header adapter: `header['hdr_size']`, `header['nb_streamlines']`,
`header['nb_scalars_per_point']`, `header['nb_properties_per_streamline']`. -/
structure Header where
  hdr_size : Nat
  nb_streamlines : Nat
  nb_scalars : Nat
  nb_properties : Nat
deriving DecidableEq, Repr

/-- `point_size = 3 + n_scalars`: floats per stored point. -/
def point_size (h : Header) : Nat := 3 + h.nb_scalars

/-- `point_bytes = 4 * point_size`. -/
def point_bytes (h : Header) : Nat := 4 * point_size h

/-- `properties_bytes = n_properties * 4`. -/
def properties_bytes (h : Header) : Nat := h.nb_properties * 4

/-- `length_bytes = 4`: size of the int32 length prefix. -/
def length_bytes : Nat := 4

/-- `struct.unpack('<i', f.read(4))[0]`: a 32-bit word read as a signed
int32 (`get_length_struct` in `load_trk_new.py` / `load_trk_newer.py`). -/
def toInt32 (w : Nat) : Int := if w < 2 ^ 31 then (w : Int) else (w : Int) - 2 ^ 32

/-- One streamline record of the TRK payload: the declared point count
(stored as the int32 length prefix), the point/scalar data words and the
per-streamline property words.  See the format description at the top of
`load_streamlines`: `int32 length`, then `length * (3 + n_scalars)`
float32 words, then `n_properties` float32 words. -/
structure Record where
  npoints : Nat
  dataWords : List Nat
  propWords : List Nat
deriving DecidableEq, Repr

/-- The payload words of one record: length prefix, then data, then
properties. -/
def encodeRecord (r : Record) : List Nat := r.npoints :: (r.dataWords ++ r.propWords)

/-- The payload of a whole file: the records, one after another. -/
def encodeFile (rs : List Record) : List Nat := (rs.map encodeRecord).flatten

/-- A record is well-formed for a header when its data and property blocks
have the sizes the header declares, and its point count is representable
as a nonnegative int32. -/
def wfRecord (h : Header) (r : Record) : Prop :=
  r.dataWords.length = r.npoints * point_size h ∧
  r.propWords.length = h.nb_properties ∧
  r.npoints < 2 ^ 31

instance (h : Header) (r : Record) : Decidable (wfRecord h r) := by
  unfold wfRecord; exact inferInstance

/-- The sequential length scan of `load_trk_new.py` (lines 100-106):
starting at word `pos` of the payload (byte `hdr_size + 4*pos` of the
file), read one int32 `l`, then `f.seek(point_bytes * l + properties_bytes, 1)`,
i.e. advance by `1 + l*point_size + n_properties` words; repeat `k` times.
A negative `l` would make Python seek backwards; `Int.toNat` clamps that
case, which the claims (all about nonnegative lengths) never reach. -/
def seqScanAux (h : Header) (words : List Nat) : Nat → Nat → List Int
  | 0, _ => []
  | k + 1, pos =>
    let l : Int := toInt32 (words.getD pos 0)
    l :: seqScanAux h words k (pos + 1 + ((l * (point_size h : Int)).toNat + h.nb_properties))

/-- `lengths` as produced by the sequential strategy: `nb_streamlines`
iterations starting at byte `hdr_size` (payload word 0). -/
def seqLengths (h : Header) (words : List Nat) : List Int :=
  seqScanAux h words h.nb_streamlines 0

/-- Running sums with a starting accumulator, the shape of `np.cumsum`. -/
def cumsumFrom {α : Type} [Add α] (acc : α) : List α → List α
  | [] => []
  | x :: xs => (acc + x) :: cumsumFrom (acc + x) xs

/-- `np.cumsum`: inclusive running sums. -/
def cumsum {α : Type} [Add α] [Zero α] (l : List α) : List α := cumsumFrom 0 l

/-- The sequential index of `load_trk_new.py` (lines 111-113):
`index_bytes = lengths * point_bytes + properties_bytes + length_bytes`
then `np.concatenate([[length_bytes], index_bytes[:-1]]).cumsum() + header_size`.
Entry `i` is the byte position of streamline `i`'s first coordinate float. -/
def index_bytes (h : Header) (lengths : List Int) : List Int :=
  let ib := lengths.map (fun l => l * (point_bytes h : Int) + (properties_bytes h : Int) + (length_bytes : Int))
  (cumsum ((length_bytes : Int) :: ib.dropLast)).map (fun x => x + (h.hdr_size : Int))

/-- The candidate filter of the heuristic scan, applied word by word with
its byte offset: keep `(offset, w)` whenever `0 < w < 100000` viewed as
uint32 (`np.logical_and(buffer < 100000, buffer > 0)`), advancing the
offset by 4 per word.  This models `np.where` over a buffer of words
starting at byte offset `base`. -/
def scanWords (base : Nat) : List Nat → List (Nat × Nat)
  | [] => []
  | w :: ws =>
    if 0 < w ∧ w < 100000 then (base, w) :: scanWords (base + 4) ws
    else scanWords (base + 4) ws

/-- `chunk_size = 256 * 1024 ** 2` bytes (`load_trk_newer.py` line 78). -/
def chunk_size : Nat := 256 * 1024 ^ 2

/-- Words per chunk: `chunk_size // nb_bytes_uint32`. -/
def chunkWords : Nat := chunk_size / 4

/-- The chunked heuristic scan of `load_trk_newer.py` (lines 80-99): read
up to `chunk_size` bytes into a buffer, keep the candidate words with byte
offsets `4 * index_in_chunk + chunk_id * chunk_size`, and loop until a
read returns nothing.  `fuel` bounds the number of loop iterations; every
iteration consumes at least one word, so `words.length + 1` iterations
always suffice (see `scanChunks`). -/
def scanChunksFuel : Nat → List Nat → Nat → List (Nat × Nat)
  | 0, _, _ => []
  | _ + 1, [], _ => []
  | fuel + 1, w :: ws, chunk_id =>
    scanWords (chunk_id * chunk_size) ((w :: ws).take chunkWords) ++
      scanChunksFuel fuel ((w :: ws).drop chunkWords) (chunk_id + 1)

/-- The complete chunked scan over the payload, starting at chunk 0. -/
def scanChunks (words : List Nat) : List (Nat × Nat) :=
  scanChunksFuel (words.length + 1) words 0

/-- The heuristic index of `load_trk_newer.py`: the candidates of the
chunked scan with `offsets += header_size + nb_bytes_uint32` applied
(lines 101-102), so each stored offset points 4 bytes past the candidate
length field, at the first coordinate float.  `words` is the file content
from byte 1000 (= `hdr_size` in this format) onwards. -/
def heuristicIndexNewer (h : Header) (words : List Nat) : List (Nat × Nat) :=
  (scanChunks words).map (fun p => (p.1 + (h.hdr_size + 4), p.2))

/-- Spec-side definition, following the specification text: the scan
selects every word `w` of the payload with `0 < w < 100000` as a
candidate, records its offset and value, and the extractor reaches the
first coordinate by adding 4 bytes to the recorded offset (the length
field at byte `hdr_size + 4*i` yields resolved offset `hdr_size + 4*i + 4`). -/
def selectCandidates (h : Header) (words : List Nat) : List (Nat × Nat) :=
  ((List.range words.length).map (fun i => (h.hdr_size + 4 * i + 4, words.getD i 0))).filter
    (fun p => decide (0 < p.2 ∧ p.2 < 100000))

instance : Inhabited Record := ⟨⟨0, [], []⟩⟩

/-- Proof helper: the ideal index of a well-formed file — entry `i` pairs
the payload byte offset of record `i`'s length field with its point count. -/
def trueIndex : Nat → List Record → List (Nat × Nat)
  | _, [] => []
  | base, r :: rs => (base, r.npoints) :: trueIndex (base + 4 * (encodeRecord r).length) rs

/-- The index as a `(length, first-coordinate byte offset)` pair per
streamline id, as the sequential strategy of `load_trk_new.py` produces it. -/
def seqIndex (h : Header) (words : List Nat) : List (Int × Int) :=
  (seqLengths h words).zip (index_bytes h (seqLengths h words))

/-- The heuristic candidate lengths of `load_trk_no_numba.py` (lines 81-84):
`lengths = buffer_int32[buffer_int32 < 100000]` then
`lengths = lengths[lengths > 0]`, over the payload viewed as uint32 words. -/
def heuristicLengthsNN (words : List Nat) : List Nat :=
  (words.filter (fun w => decide (w < 100000))).filter (fun w => decide (0 < w))

/-- The in-buffer sequential fallback walk of `load_trk_no_numba.py`
(lines 88-93): `l = buffer_int32[pointer]`, record `l`, then
`pointer += 1 + l * point_size + n_properties`, repeated
`nb_streamlines` times.  The buffer is viewed as unsigned words here. -/
def seqLengthsBufAux (h : Header) (words : List Nat) : Nat → Nat → List Nat
  | 0, _ => []
  | k + 1, pos =>
    let l := words.getD pos 0
    l :: seqLengthsBufAux h words k (pos + 1 + (l * point_size h + h.nb_properties))

/-- The length index `load_trk_no_numba.py` ends up with (lines 81-93):
the heuristic candidates, replaced by the sequential walk only when
strictly more candidates than `nb_streamlines` were found
(`if len(lengths) > nb_streamlines`). -/
def lengthsNN (h : Header) (words : List Nat) : List Nat :=
  let cands := heuristicLengthsNN words
  if h.nb_streamlines < cands.length then seqLengthsBufAux h words h.nb_streamlines 0
  else cands

/-- A 4×4 affine matrix over the numeric plane (float32 values modelled as
rationals), as returned by the external
`nib.streamlines.trk.get_affine_trackvis_to_rasmm(header)`. -/
def Affine : Type := Fin 4 → Fin 4 → ℚ

/-- The 4×4 identity affine. -/
def identityAffine : Affine := fun i j => if i = j then 1 else 0

/-- Application of the affine to one 3-float row, as both
`nib.affines.apply_affine(aff, s)` (row-wise) and `parse_streamlines` of
`load_trk_numba.py` (lines 25-30) compute it: `R · p + t` with
`R = affine[:3, :3]` and `t = affine[:3, 3]`. -/
def affineRow (A : Affine) (r : List ℚ) : List ℚ :=
  [A 0 0 * r.getD 0 0 + A 0 1 * r.getD 1 0 + A 0 2 * r.getD 2 0 + A 0 3,
   A 1 0 * r.getD 0 0 + A 1 1 * r.getD 1 0 + A 1 2 * r.getD 2 0 + A 1 3,
   A 2 0 * r.getD 0 0 + A 2 1 * r.getD 1 0 + A 2 2 * r.getD 2 0 + A 2 3]

/-- One row of `ps` float32 values read from the file at float index
`off`: `np.empty` then `f.readinto` — the row always has `ps` entries,
bytes past end-of-file leaving (modelled-as-zero) uninitialized values. -/
def readRow (file : List ℚ) (off ps : Nat) : List ℚ :=
  ((file.drop off) ++ List.replicate ps 0).take ps

/-- `s = np.empty((length, point_size)); f.readinto(s)`: `n` consecutive
rows of `ps` floats starting at float index `off`. -/
def readRows (file : List ℚ) : Nat → Nat → Nat → List (List ℚ)
  | _, _, 0 => []
  | off, ps, n + 1 => readRow file off ps :: readRows file (off + ps) ps n

/-- One streamline as extracted by `load_trk_new.py` (lines 124-142): seek
`index_bytes[idx]`, read a `lengths[idx] × point_size` float32 matrix,
drop the scalar columns when `n_scalars > 0` (`s = s[:, :3]`), and apply
the affine to every row when requested.  `file` is the whole file as
float32 words, so byte offset `b` addresses float index `b / 4`. -/
def extractOneNew (h : Header) (A : Affine) (applyAffine : Bool)
    (file : List ℚ) (lengths idxBytes : List Nat) (idx : Nat) : List (List ℚ) :=
  let s := readRows file (idxBytes.getD idx 0 / 4) (point_size h) (lengths.getD idx 0)
  let s2 := if 0 < h.nb_scalars then s.map (fun row => row.take 3) else s
  if applyAffine then s2.map (affineRow A) else s2

/-- The extraction loop of `load_trk_new.py` (lines 121-144): one
streamline appended per entry of `idxs`, in request order. -/
def extractNewList (h : Header) (A : Affine) (applyAffine : Bool)
    (file : List ℚ) (lengths idxBytes : List Nat) (idxs : List Nat) : List (List (List ℚ)) :=
  idxs.map (extractOneNew h A applyAffine file lengths idxBytes)

/-- `np.cumsum(np.pad(lengths[:-1], (1, 0), "constant"))`: the output row
offsets of the shared `ArraySequence` buffer (`load_trk_newer.py`,
line 150). -/
def outOffsets (lengths : List Nat) : List Nat := cumsum (0 :: lengths.dropLast)

/-- numpy slice assignment `buf[pos : pos + vals.length] = vals`. -/
def writeSeg (buf : List ℚ) (pos : Nat) (vals : List ℚ) : List ℚ :=
  buf.take pos ++ vals ++ buf.drop (pos + vals.length)

/-- The extraction of `load_trk_newer.py` (lines 144-164): allocate one
flat `lengths.sum × point_size` float buffer (`np.empty`, modelled
zero-initialized), compute output row offsets from ALL lengths, `zip` the
requested ids with those output offsets, read streamline `idx`'s floats
into the slot at `offset`, and finally return one `[:, :3]` matrix per
FILE streamline by walking the shared buffer (`for s in seq`). -/
def extractNewer (h : Header) (file : List ℚ) (lengths idxBytes : List Nat)
    (idxs : List Nat) : List (List (List ℚ)) :=
  let ps := point_size h
  let offs := outOffsets lengths
  let data := (idxs.zip offs).foldl
    (fun buf p => writeSeg buf (p.2 * ps)
      ((file.drop (idxBytes.getD p.1 0 / 4) ++ List.replicate (lengths.getD p.1 0 * ps) 0).take
        (lengths.getD p.1 0 * ps)))
    (List.replicate (lengths.sum * ps) 0)
  (List.range lengths.length).map (fun i =>
    (readRows data (offs.getD i 0 * ps) ps (lengths.getD i 0)).map (fun row => row.take 3))

/-- `reshape(-1, 3)`: split a flat float sequence into rows of 3; `none`
models the numpy error when the float count is not divisible by 3. -/
def reshapeRows3 : List ℚ → Option (List (List ℚ))
  | [] => some []
  | a :: b :: c :: rest => (reshapeRows3 rest).map (fun rows => [a, b, c] :: rows)
  | _ => none

/-- `split_points = (n_floats + 1 + n_properties).cumsum() - n_floats - n_properties`
(`load_trk_no_numba.py` line 100): the float index of each streamline's
first coordinate inside the payload buffer. -/
def split_points (h : Header) (lengths : List Nat) : List Nat :=
  let n_floats := lengths.map (fun l => l * point_size h)
  (cumsum (n_floats.map (fun x => x + 1 + h.nb_properties))).zipWith
    (fun c x => c - (x + h.nb_properties)) n_floats

/-- One streamline as extracted by `load_trk_no_numba.py` (lines 103-117):
slice `lengths[idx] * point_size` floats of the payload buffer starting at
`split_points[idx]` and `reshape(-1, 3)`.  Note: the scalar columns are
NOT dropped before reshaping. -/
def extractOneNN (h : Header) (buffer : List ℚ) (lengths : List Nat) (idx : Nat) :
    Option (List (List ℚ)) :=
  reshapeRows3 ((buffer.drop ((split_points h lengths).getD idx 0)).take
    (lengths.getD idx 0 * point_size h))

/-- A requested-ids argument of `load_streamlines`: `None`, an int sample
size, or an explicit id sequence. -/
inductive IdxRequest : Type
  | all : IdxRequest
  | sample : Nat → IdxRequest
  | explicitIds : List Int → IdxRequest

/-- Modelled from the documented contract of the external
`np.random.choice(np.arange(n), size, replace=replace)`: with
`replace=False` and `size > n` it raises a `ValueError`
(cannot take a larger sample than population when replace is False);
otherwise it returns `size` drawn ids, abstracted here by a `draw`
oracle supplied by the caller. -/
def np_random_choice (n size : Nat) (replace : Bool) (draw : List Nat) :
    Except String (List Nat) :=
  if replace = false ∧ n < size then
    .error "ValueError: cannot take a larger sample than population"
  else .ok (draw.take size)

/-- `np.arange(nb_streamlines)`. -/
def allIds (n : Nat) : List Int := (List.range n).map Int.ofNat

/-- The requested-ids resolution of `load_trk_new.py` (lines 62-72):
`None` becomes `arange(nb_streamlines)`; an int prints
"WARNING: Sampling with replacement" when
`idxs > nb_streamlines and (not replace)` and then calls
`np.random.choice(..., replace=replace)` with `replace` UNCHANGED; an
explicit sequence is used verbatim.  The Bool component records whether
the warning was printed. -/
def resolve_idxs (h : Header) (replace : Bool) (draw : List Nat) :
    IdxRequest → Bool × Except String (List Int)
  | .all => (false, .ok (allIds h.nb_streamlines))
  | .sample count =>
    (decide (h.nb_streamlines < count ∧ replace = false),
      (np_random_choice h.nb_streamlines count replace draw).map (List.map Int.ofNat))
  | .explicitIds ids => (false, .ok ids)

/-- numpy integer indexing on an array of length `len`: ids in `[0, len)`
index from the front, ids in `[-len, 0)` wrap around to `len + i`,
anything else raises `IndexError`. -/
def npGet {α : Type} (a : List α) (i : Int) : Option α :=
  if 0 ≤ i then a[i.toNat]?
  else if -(a.length : Int) ≤ i then a[a.length - (-i).toNat]?
  else none

/-- The per-id extraction loop of `load_trk_new.py` (lines 122-139) at the
error level: for each requested id, `index_bytes[idx]` then
`lengths[idx]` are looked up with numpy indexing — an id numpy rejects
raises `IndexError` before the payload is read; otherwise the streamline
rows are read and the loop continues. -/
def extractChecked (h : Header) (file : List ℚ) (lengths idxBytes : List Int) :
    List Int → Except String (List (List (List ℚ)))
  | [] => .ok []
  | i :: rest =>
    match npGet idxBytes i with
    | none => .error "IndexError: index out of bounds"
    | some off =>
      match npGet lengths i with
      | none => .error "IndexError: index out of bounds"
      | some l =>
        (extractChecked h file lengths idxBytes rest).map
          (fun tail => readRows file (off.toNat / 4) (point_size h) l.toNat :: tail)

lemma cumsumFrom_getElem? {α : Type} [AddMonoid α] (l : List α) (acc : α) (i : Nat)
    (hi : i < l.length) :
    (cumsumFrom acc l)[i]? = some (acc + (l.take (i + 1)).sum) := by
  induction l generalizing acc i with
  | nil => simp at hi
  | cons x xs ih =>
    cases i with
    | zero => simp [cumsumFrom]
    | succ j =>
      have hj : j < xs.length := by simpa using hi
      simp only [cumsumFrom, List.getElem?_cons_succ]
      rw [ih (acc + x) j hj]
      simp [List.take_succ_cons, add_assoc]

lemma length_cumsumFrom {α : Type} [Add α] (l : List α) (acc : α) :
    (cumsumFrom acc l).length = l.length := by
  induction l generalizing acc with
  | nil => rfl
  | cons x xs ih => simp [cumsumFrom, ih]

/-- Closed form of `index_bytes`: entry `i` is
`hdr_size + 4 + Σ_{j<i} (l_j * point_bytes + properties_bytes + 4)`. -/
lemma index_bytes_getElem? (h : Header) (L : List Int) (i : Nat) (hi : i < L.length) :
    (index_bytes h L)[i]? =
      some ((h.hdr_size : Int) + (length_bytes : Int) +
        ((L.take i).map
          (fun l => l * (point_bytes h : Int) + (properties_bytes h : Int) + (length_bytes : Int))).sum) := by
  unfold index_bytes
  set f : Int → Int :=
    fun l => l * (point_bytes h : Int) + (properties_bytes h : Int) + (length_bytes : Int) with hf
  have hLpos : 0 < L.length := by omega
  have hlen : i < ((length_bytes : Int) :: (L.map f).dropLast).length := by
    simp only [List.length_cons, List.length_dropLast, List.length_map]
    omega
  rw [List.getElem?_map, cumsum, cumsumFrom_getElem? _ _ _ hlen]
  have hdl : ((length_bytes : Int) :: (L.map f).dropLast).take (i + 1) =
      (length_bytes : Int) :: ((L.map f).take i) := by
    rw [List.take_succ_cons, List.dropLast_eq_take, List.take_take]
    have hmin : i ⊓ ((L.map f).length - 1) = i := by
      simp only [List.length_map]; omega
    rw [hmin]
  rw [hdl]
  simp only [Option.map_some', List.sum_cons, List.map_take]
  congr 1
  ring

lemma length_index_bytes (h : Header) (L : List Int) (hL : L ≠ []) :
    (index_bytes h L).length = L.length := by
  unfold index_bytes
  simp only [List.length_map, cumsum, length_cumsumFrom, List.length_cons,
    List.length_dropLast, List.length_map]
  have : 0 < L.length := List.length_pos.mpr hL
  omega

lemma seqScanAux_append (h : Header) (pre ws : List Nat) :
    ∀ (k pos : Nat), seqScanAux h (pre ++ ws) k (pre.length + pos) = seqScanAux h ws k pos := by
  intro k
  induction k with
  | zero => intro pos; rfl
  | succ n ih =>
    intro pos
    have hget : (pre ++ ws).getD (pre.length + pos) 0 = ws.getD pos 0 := by
      rw [List.getD_eq_getElem?_getD, List.getD_eq_getElem?_getD,
        List.getElem?_append_right (by omega)]
      have hsub : pre.length + pos - pre.length = pos := by omega
      rw [hsub]
    simp only [seqScanAux, hget]
    rw [show pre.length + pos + 1 + ((toInt32 (ws.getD pos 0) * (point_size h : Int)).toNat + h.nb_properties)
        = pre.length + (pos + 1 + ((toInt32 (ws.getD pos 0) * (point_size h : Int)).toNat + h.nb_properties)) by omega]
    exact congrArg _ (ih _)

lemma toInt32_small (w : Nat) (hw : w < 2 ^ 31) : toInt32 w = (w : Int) := by
  unfold toInt32
  rw [if_pos hw]

lemma length_encodeRecord (h : Header) (r : Record) (hr : wfRecord h r) :
    (encodeRecord r).length = 1 + r.npoints * point_size h + h.nb_properties := by
  obtain ⟨h1, h2, _⟩ := hr
  simp only [encodeRecord, List.length_cons, List.length_append, h1, h2]
  omega

/-- On a well-formed file the sequential scan recovers exactly the declared
point counts, in file order. -/
lemma seqScanAux_encodeFile (h : Header) :
    ∀ (rs : List Record), (∀ r ∈ rs, wfRecord h r) →
      seqScanAux h (encodeFile rs) rs.length 0 = rs.map (fun r => (r.npoints : Int)) := by
  intro rs
  induction rs with
  | nil => intro _; rfl
  | cons r rest ih =>
    intro hwf
    have hr : wfRecord h r := hwf r (List.mem_cons_self r rest)
    have hfile : encodeFile (r :: rest) = encodeRecord r ++ encodeFile rest := by
      simp [encodeFile]
    have hhead : (encodeFile (r :: rest)).getD 0 0 = r.npoints := by
      rw [hfile]; simp [encodeRecord]
    simp only [List.length_cons, seqScanAux, hhead]
    rw [toInt32_small r.npoints hr.2.2]
    have hjump : ((r.npoints : Int) * (point_size h : Int)).toNat + h.nb_properties
        = r.npoints * point_size h + h.nb_properties := by
      have : ((r.npoints : Int) * (point_size h : Int)) = ((r.npoints * point_size h : Nat) : Int) := by
        push_cast; ring
      rw [this, Int.toNat_natCast]
    rw [hjump]
    have hpos : 0 + 1 + (r.npoints * point_size h + h.nb_properties) = (encodeRecord r).length + 0 := by
      rw [length_encodeRecord h r hr]; omega
    rw [hpos, hfile, seqScanAux_append]
    rw [ih (fun x hx => hwf x (List.mem_cons_of_mem r hx))]
    simp

lemma sum_map_wf_records (h : Header) :
    ∀ (l : List Record), (∀ r ∈ l, wfRecord h r) →
      ((l.map (fun r => 4 + (r.npoints : Int) * (point_bytes h : Int) + (properties_bytes h : Int))).sum)
        = 4 * ((l.map (fun r => ((encodeRecord r).length : Int))).sum) := by
  intro l
  induction l with
  | nil => intro _; simp
  | cons r rest ih =>
    intro hwf
    have hr : wfRecord h r := hwf r (List.mem_cons_self r rest)
    simp only [List.map_cons, List.sum_cons, ih (fun x hx => hwf x (List.mem_cons_of_mem r hx))]
    rw [length_encodeRecord h r hr]
    unfold point_bytes properties_bytes
    push_cast
    ring

/-- **C2**: on a well-formed file the sequential strategy reads the `n`
declared int32 lengths in order, and the extraction offset it computes for
streamline `i` is
`hdr_size + 4 + Σ_{j<i} (4 + l_j * point_bytes + properties_bytes)`, which
is the byte position of streamline `i`'s first coordinate float
(4 bytes past the start of record `i`). -/
theorem sequential_strategy_offsets (h : Header) (rs : List Record)
    (hn : h.nb_streamlines = rs.length)
    (hwf : ∀ r ∈ rs, wfRecord h r)
    (i : Nat) (hi : i < rs.length) :
    seqLengths h (encodeFile rs) = rs.map (fun r => (r.npoints : Int)) ∧
    (index_bytes h (seqLengths h (encodeFile rs)))[i]? =
      some ((h.hdr_size : Int) + 4 +
        ((rs.take i).map
          (fun r => 4 + (r.npoints : Int) * (point_bytes h : Int) + (properties_bytes h : Int))).sum) ∧
    (h.hdr_size : Int) + 4 +
        ((rs.take i).map
          (fun r => 4 + (r.npoints : Int) * (point_bytes h : Int) + (properties_bytes h : Int))).sum
      = (h.hdr_size : Int) + 4 * ((rs.take i).map (fun r => ((encodeRecord r).length : Int))).sum + 4 := by
  have hseq : seqLengths h (encodeFile rs) = rs.map (fun r => (r.npoints : Int)) := by
    unfold seqLengths
    rw [hn]
    exact seqScanAux_encodeFile h rs hwf
  refine ⟨hseq, ?_, ?_⟩
  · rw [hseq]
    have hi2 : i < (rs.map (fun r => (r.npoints : Int))).length := by simpa using hi
    rw [index_bytes_getElem? h _ i hi2]
    rw [← List.map_take, List.map_map]
    have hfun : ((fun l => l * (point_bytes h : Int) + (properties_bytes h : Int) + (length_bytes : Int))
          ∘ fun r : Record => (r.npoints : Int))
        = fun r : Record => 4 + (r.npoints : Int) * (point_bytes h : Int) + (properties_bytes h : Int) := by
      funext r
      simp only [Function.comp_apply, length_bytes]
      push_cast
      ring
    rw [hfun]
    norm_num [length_bytes]
  · rw [sum_map_wf_records h (rs.take i) (fun r hr => hwf r (List.mem_of_mem_take hr))]
    ring

/-- Witness for C2: a concrete file with two streamlines of lengths 1 and 2,
no scalars, no properties; the offset of streamline 1 evaluates to
`1000 + 4 + (4 + 1*12) = 1020`. -/
theorem sequential_strategy_offsets_witness :
    ((⟨1000, 2, 0, 0⟩ : Header).nb_streamlines
        = ([⟨1, [7, 8, 9], []⟩, ⟨2, [10, 11, 12, 13, 14, 15], []⟩] : List Record).length) ∧
    (∀ r ∈ ([⟨1, [7, 8, 9], []⟩, ⟨2, [10, 11, 12, 13, 14, 15], []⟩] : List Record),
      wfRecord ⟨1000, 2, 0, 0⟩ r) ∧
    1 < ([⟨1, [7, 8, 9], []⟩, ⟨2, [10, 11, 12, 13, 14, 15], []⟩] : List Record).length ∧
    (index_bytes ⟨1000, 2, 0, 0⟩ (seqLengths ⟨1000, 2, 0, 0⟩
      (encodeFile [⟨1, [7, 8, 9], []⟩, ⟨2, [10, 11, 12, 13, 14, 15], []⟩])))[1]? = some 1020 := by
  refine ⟨by decide, by decide, by decide, ?_⟩
  have hmain := (sequential_strategy_offsets ⟨1000, 2, 0, 0⟩
    [⟨1, [7, 8, 9], []⟩, ⟨2, [10, 11, 12, 13, 14, 15], []⟩] (by decide) (by decide) 1 (by decide)).2.1
  rw [hmain]
  decide

/-- **C10**: for nonnegative declared lengths the sequence of extraction
offsets is strictly increasing: offset `i+1` exceeds offset `i` by exactly
`4 + l_i * point_bytes + properties_bytes`, which is at least 4. -/
theorem index_offsets_strictly_increasing (h : Header) (L : List Int)
    (hL : ∀ l ∈ L, 0 ≤ l) (i : Nat) (hi : i + 1 < L.length) :
    (index_bytes h L).getD (i + 1) 0 =
      (index_bytes h L).getD i 0 +
        (4 + L.getD i 0 * (point_bytes h : Int) + (properties_bytes h : Int)) ∧
    (index_bytes h L).getD i 0 + 4 ≤ (index_bytes h L).getD (i + 1) 0 := by
  have hiL : i < L.length := by omega
  have hv : L[i]? = some (L.getD i 0) := by
    rw [List.getD_eq_getElem?_getD]
    cases hLi : L[i]? with
    | none =>
      exfalso
      rw [List.getElem?_eq_none_iff] at hLi
      omega
    | some v => rfl
  have hmem : L.getD i 0 ∈ L := by
    rw [List.getD_eq_getElem L 0 hiL]
    exact List.getElem_mem hiL
  have htake : L.take (i + 1) = L.take i ++ [L.getD i 0] := by
    rw [List.take_succ, hv]
    rfl
  have h1 := index_bytes_getElem? h L i hiL
  have h2 := index_bytes_getElem? h L (i + 1) hi
  rw [htake] at h2
  simp only [List.map_append, List.sum_append, List.map_cons, List.map_nil, List.sum_cons,
    List.sum_nil] at h2
  rw [List.getD_eq_getElem?_getD, List.getD_eq_getElem?_getD, h1, h2]
  simp only [Option.getD_some, length_bytes]
  constructor
  · push_cast
    ring
  · have hnn : 0 ≤ L.getD i 0 * (point_bytes h : Int) :=
      mul_nonneg (hL _ hmem) (Int.natCast_nonneg _)
    have hpn : (0 : Int) ≤ (properties_bytes h : Int) := Int.natCast_nonneg _
    push_cast
    linarith

/-- Witness for C10 at concrete lengths `[3, 5]` with one scalar per point
and two properties per streamline. -/
theorem index_offsets_strictly_increasing_witness :
    (∀ l ∈ ([3, 5] : List Int), 0 ≤ l) ∧ 0 + 1 < ([3, 5] : List Int).length ∧
    ((index_bytes ⟨1000, 2, 1, 2⟩ [3, 5]).getD (0 + 1) 0 =
      (index_bytes ⟨1000, 2, 1, 2⟩ [3, 5]).getD 0 0 +
        (4 + ([3, 5] : List Int).getD 0 0 * (point_bytes ⟨1000, 2, 1, 2⟩ : Int)
          + (properties_bytes ⟨1000, 2, 1, 2⟩ : Int)) ∧
    (index_bytes ⟨1000, 2, 1, 2⟩ [3, 5]).getD 0 0 + 4 ≤
      (index_bytes ⟨1000, 2, 1, 2⟩ [3, 5]).getD (0 + 1) 0) :=
  ⟨by decide, by decide,
    index_offsets_strictly_increasing ⟨1000, 2, 1, 2⟩ [3, 5] (by decide) 0 (by decide)⟩

lemma scanWords_append (a b : List Nat) :
    ∀ base, scanWords base (a ++ b) = scanWords base a ++ scanWords (base + 4 * a.length) b := by
  induction a with
  | nil => intro base; simp [scanWords]
  | cons w ws ih =>
    intro base
    simp only [List.cons_append, scanWords, List.length_cons, List.append_eq]
    by_cases hc : 0 < w ∧ w < 100000
    · rw [if_pos hc, if_pos hc, ih (base + 4),
        show base + 4 + 4 * ws.length = base + 4 * (ws.length + 1) by omega]
      simp
    · rw [if_neg hc, if_neg hc, ih (base + 4),
        show base + 4 + 4 * ws.length = base + 4 * (ws.length + 1) by omega]

lemma scanChunksFuel_nil (fuel chunk_id : Nat) : scanChunksFuel fuel [] chunk_id = [] := by
  cases fuel <;> rfl

lemma chunkWords_eq : chunkWords = 67108864 := by norm_num [chunkWords, chunk_size]

lemma chunk_size_eq_4_mul : chunk_size = 4 * chunkWords := by
  norm_num [chunkWords, chunk_size]

/-- The chunk decomposition is sound: with enough fuel the chunked scan
equals the single flat scan of all payload words. -/
lemma scanChunksFuel_eq_scanWords :
    ∀ (fuel : Nat) (ws : List Nat) (chunk_id : Nat), ws.length ≤ fuel * chunkWords →
      scanChunksFuel fuel ws chunk_id = scanWords (chunk_id * chunk_size) ws := by
  intro fuel
  induction fuel with
  | zero =>
    intro ws chunk_id hlen
    have : ws = [] := by
      cases ws with
      | nil => rfl
      | cons a as => simp at hlen
    subst this
    rfl
  | succ n ih =>
    intro ws chunk_id hlen
    cases ws with
    | nil => rfl
    | cons w ws0 =>
      have hstep : scanChunksFuel (n + 1) (w :: ws0) chunk_id =
          scanWords (chunk_id * chunk_size) ((w :: ws0).take chunkWords) ++
            scanChunksFuel n ((w :: ws0).drop chunkWords) (chunk_id + 1) := rfl
      by_cases hsmall : (w :: ws0).length ≤ chunkWords
      · have htake : (w :: ws0).take chunkWords = w :: ws0 := List.take_of_length_le hsmall
        have hdrop : (w :: ws0).drop chunkWords = [] := List.drop_eq_nil_of_le hsmall
        rw [hstep, htake, hdrop, scanChunksFuel_nil, List.append_nil]
      · push_neg at hsmall
        have hdlen : ((w :: ws0).drop chunkWords).length ≤ n * chunkWords := by
          rw [List.length_drop, chunkWords_eq]
          rw [chunkWords_eq] at hlen
          omega
        have hsplit : (w :: ws0) = (w :: ws0).take chunkWords ++ (w :: ws0).drop chunkWords :=
          (List.take_append_drop chunkWords (w :: ws0)).symm
        rw [hstep, ih _ (chunk_id + 1) hdlen]
        conv_rhs => rw [hsplit]
        rw [scanWords_append]
        have hlen_take : ((w :: ws0).take chunkWords).length = chunkWords := by
          rw [List.length_take]
          omega
        have harith : chunk_id * chunk_size + 4 * chunkWords = (chunk_id + 1) * chunk_size := by
          rw [chunk_size_eq_4_mul]
          ring
        rw [hlen_take, harith]

lemma scanChunks_eq_scanWords (words : List Nat) : scanChunks words = scanWords 0 words := by
  unfold scanChunks
  have hcw := chunkWords_eq
  have : words.length ≤ (words.length + 1) * chunkWords := by
    rw [hcw]
    nlinarith [words.length.zero_le]
  rw [scanChunksFuel_eq_scanWords _ _ 0 this, Nat.zero_mul]

lemma scanWords_shift (ws : List Nat) :
    ∀ base b, (scanWords base ws).map (fun p => (p.1 + b, p.2)) = scanWords (base + b) ws := by
  induction ws with
  | nil => intro base b; rfl
  | cons w t ih =>
    intro base b
    by_cases hc : 0 < w ∧ w < 100000
    · simp only [scanWords, if_pos hc, List.map_cons, ih (base + 4) b]
      rw [show base + 4 + b = base + b + 4 by omega]
    · simp only [scanWords, if_neg hc, ih (base + 4) b]
      rw [show base + 4 + b = base + b + 4 by omega]

lemma scanWords_eq_filter (ws : List Nat) :
    ∀ base, scanWords base ws =
      ((List.range ws.length).map (fun i => (base + 4 * i, ws.getD i 0))).filter
        (fun p => decide (0 < p.2 ∧ p.2 < 100000)) := by
  induction ws with
  | nil => intro base; simp [scanWords]
  | cons w t ih =>
    intro base
    simp only [List.length_cons, List.range_succ_eq_map, List.map_cons, List.map_map,
      List.filter_cons]
    have hfun : ((fun i => (base + 4 * i, (w :: t).getD i 0)) ∘ Nat.succ)
        = fun i => (base + 4 + 4 * i, t.getD i 0) := by
      funext i
      simp only [Function.comp_apply, List.getD_cons_succ]
      congr 1
      omega
    rw [hfun, ← ih (base + 4)]
    by_cases hc : 0 < w ∧ w < 100000
    · rw [scanWords, if_pos hc]
      simp [hc]
    · rw [scanWords, if_neg hc]
      simp [hc]

/-- **C5**: the heuristic bulk scan selects, over the payload words, exactly
those words `w` with `0 < w < 100000` (viewed as unsigned 32-bit integers)
as length candidates, in file order; each candidate's recorded entry pairs
its value with the resolved offset `hdr_size + 4*i + 4` — the length field
sits at byte `hdr_size + 4*i` and the stored index adds 4 bytes to reach
the first coordinate float. -/
theorem heuristic_scan_candidates (h : Header) (words : List Nat) :
    heuristicIndexNewer h words = selectCandidates h words := by
  unfold heuristicIndexNewer selectCandidates
  rw [scanChunks_eq_scanWords, scanWords_shift, Nat.zero_add, scanWords_eq_filter]
  have hfun : (fun i => (h.hdr_size + 4 + 4 * i, words.getD i 0))
      = fun i => (h.hdr_size + 4 * i + 4, words.getD i 0) := by
    funext i
    congr 1
    omega
  rw [hfun]

lemma length_trueIndex : ∀ (rs : List Record) (base : Nat), (trueIndex base rs).length = rs.length := by
  intro rs
  induction rs with
  | nil => intro base; rfl
  | cons r rest ih => intro base; simp [trueIndex, ih]

lemma trueIndex_getElem? :
    ∀ (rs : List Record) (base i : Nat), i < rs.length →
      (trueIndex base rs)[i]? =
        some (base + 4 * ((rs.take i).map (fun r => (encodeRecord r).length)).sum,
          (rs.getD i default).npoints) := by
  intro rs
  induction rs with
  | nil => intro base i hi; simp at hi
  | cons r rest ih =>
    intro base i hi
    cases i with
    | zero => simp [trueIndex]
    | succ j =>
      have hj : j < rest.length := by simpa using hi
      simp only [trueIndex, List.getElem?_cons_succ, ih (base + 4 * (encodeRecord r).length) j hj,
        List.take_succ_cons, List.map_cons, List.sum_cons, List.getD_cons_succ]
      congr 2
      omega

lemma encodeFile_cons (r : Record) (rs : List Record) :
    encodeFile (r :: rs) = encodeRecord r ++ encodeFile rs := by
  simp [encodeFile]

lemma le_length_scanWords_encodeFile (rs : List Record)
    (hrange : ∀ r ∈ rs, 0 < r.npoints ∧ r.npoints < 100000) :
    ∀ base, rs.length ≤ (scanWords base (encodeFile rs)).length := by
  induction rs with
  | nil => intro base; simp
  | cons r rest ih =>
    intro base
    have hr := hrange r (List.mem_cons_self r rest)
    rw [encodeFile_cons, scanWords_append]
    rw [show encodeRecord r = r.npoints :: (r.dataWords ++ r.propWords) from rfl]
    rw [scanWords, if_pos hr]
    have htail := ih (fun x hx => hrange x (List.mem_cons_of_mem r hx))
      (base + 4 * (r.npoints :: (r.dataWords ++ r.propWords)).length)
    simp only [List.length_cons, List.length_append, List.cons_append] at htail ⊢
    omega

lemma scanWords_encodeFile_eq_trueIndex (rs : List Record)
    (hrange : ∀ r ∈ rs, 0 < r.npoints ∧ r.npoints < 100000) :
    ∀ base, (scanWords base (encodeFile rs)).length = rs.length →
      scanWords base (encodeFile rs) = trueIndex base rs := by
  induction rs with
  | nil => intro base _; rfl
  | cons r rest ih =>
    intro base hcount
    have hr := hrange r (List.mem_cons_self r rest)
    have hrange2 := fun x hx => hrange x (List.mem_cons_of_mem r hx)
    have hdec : scanWords base (encodeFile (r :: rest)) =
        ((base, r.npoints) :: scanWords (base + 4) (r.dataWords ++ r.propWords)) ++
          scanWords (base + 4 * (encodeRecord r).length) (encodeFile rest) := by
      rw [encodeFile_cons, scanWords_append,
        show encodeRecord r = r.npoints :: (r.dataWords ++ r.propWords) from rfl,
        scanWords, if_pos hr]
    have htail := le_length_scanWords_encodeFile rest hrange2
      (base + 4 * (encodeRecord r).length)
    rw [hdec] at hcount ⊢
    simp only [List.length_append, List.length_cons] at hcount
    have hA : (scanWords (base + 4) (r.dataWords ++ r.propWords)).length = 0 := by omega
    have hAnil : scanWords (base + 4) (r.dataWords ++ r.propWords) = [] :=
      List.eq_nil_of_length_eq_zero hA
    have hB : (scanWords (base + 4 * (encodeRecord r).length) (encodeFile rest)).length
        = rest.length := by omega
    rw [hAnil, ih hrange2 _ hB]
    rfl

lemma length_seqScanAux (h : Header) (words : List Nat) :
    ∀ (k pos : Nat), (seqScanAux h words k pos).length = k := by
  intro k
  induction k with
  | zero => intro pos; rfl
  | succ n ih => intro pos; simp [seqScanAux, ih]

lemma zip_getElem?_of {α β : Type} (as : List α) (bs : List β) :
    ∀ (i : Nat) (a : α) (b : β), as[i]? = some a → bs[i]? = some b →
      (as.zip bs)[i]? = some (a, b) := by
  induction as generalizing bs with
  | nil => intro i a b ha _; simp at ha
  | cons x xs ih =>
    intro i a b ha hb
    cases bs with
    | nil => simp at hb
    | cons y ys =>
      cases i with
      | zero =>
        simp only [List.getElem?_cons_zero, Option.some_inj] at ha hb
        simp [List.zip_cons_cons, ha, hb]
      | succ j =>
        simp only [List.getElem?_cons_succ] at ha hb
        simp [List.zip_cons_cons, ih ys j a b ha hb]

/-- **C3**: on a valid file (well-formed records whose point counts all lie
strictly between 0 and the threshold 100000) where the heuristic bulk scan
finds exactly `streamline_count` candidates, the heuristic index — length
and resolved first-coordinate byte offset per streamline id — is identical
to the sequential strategy's index. -/
theorem heuristic_index_equals_sequential (h : Header) (rs : List Record)
    (hn : h.nb_streamlines = rs.length)
    (hwf : ∀ r ∈ rs, wfRecord h r)
    (hrange : ∀ r ∈ rs, 0 < r.npoints ∧ r.npoints < 100000)
    (hcount : (scanChunks (encodeFile rs)).length = h.nb_streamlines) :
    (heuristicIndexNewer h (encodeFile rs)).map (fun p => ((p.2 : Int), (p.1 : Int)))
      = seqIndex h (encodeFile rs) := by
  have hcount0 : (scanWords 0 (encodeFile rs)).length = rs.length := by
    rw [← scanChunks_eq_scanWords, hcount, hn]
  have hsw : scanWords 0 (encodeFile rs) = trueIndex 0 rs :=
    scanWords_encodeFile_eq_trueIndex rs hrange 0 hcount0
  have hseq : seqLengths h (encodeFile rs) = rs.map (fun r => (r.npoints : Int)) := by
    unfold seqLengths
    rw [hn]
    exact seqScanAux_encodeFile h rs hwf
  unfold heuristicIndexNewer seqIndex
  rw [scanChunks_eq_scanWords, hsw, hseq, List.map_map]
  apply List.ext_getElem?
  intro i
  by_cases hi : i < rs.length
  · have hrs : rs[i]? = some (rs.getD i default) := by
      rw [List.getD_eq_getElem rs default hi]
      exact List.getElem?_eq_getElem hi
    have hmapL : (rs.map (fun r => (r.npoints : Int)))[i]?
        = some (((rs.getD i default).npoints : Int)) := by
      rw [List.getElem?_map, hrs]
      rfl
    have hlen2 : i < (rs.map (fun r => (r.npoints : Int))).length := by simpa using hi
    have hib := index_bytes_getElem? h (rs.map (fun r => (r.npoints : Int))) i hlen2
    rw [← List.map_take, List.map_map] at hib
    have hfun : ((fun l => l * (point_bytes h : Int) + (properties_bytes h : Int) + (length_bytes : Int))
          ∘ fun r : Record => (r.npoints : Int))
        = fun r : Record => 4 + (r.npoints : Int) * (point_bytes h : Int) + (properties_bytes h : Int) := by
      funext r
      simp only [Function.comp_apply, length_bytes]
      push_cast
      ring
    rw [hfun, sum_map_wf_records h (rs.take i) (fun r hr => hwf r (List.mem_of_mem_take hr))] at hib
    rw [zip_getElem?_of _ _ i _ _ hmapL hib]
    rw [List.getElem?_map, trueIndex_getElem? rs 0 i hi]
    simp only [Option.map_some', Function.comp_apply]
    congr 1
    rw [Prod.mk.injEq]
    refine ⟨rfl, ?_⟩
    rw [Nat.cast_add, Nat.cast_add, Nat.cast_mul, Nat.cast_list_sum, List.map_map]
    push_cast [length_bytes]
    have hmm : List.map (Nat.cast ∘ fun r : Record => (encodeRecord r).length) (rs.take i)
        = List.map (fun r : Record => ((encodeRecord r).length : Int)) (rs.take i) := rfl
    rw [hmm]
    ring
  · have hge : rs.length ≤ i := Nat.le_of_not_lt hi
    rw [List.getElem?_eq_none_iff.mpr (by simp only [List.length_map, length_trueIndex]; omega),
      List.getElem?_eq_none_iff.mpr (by
        rw [List.length_zip]
        simp only [List.length_map]
        exact le_trans (Nat.min_le_left _ _) hge)]

/-- Witness for C3: a two-streamline file whose coordinate words are all
float32 bit patterns above the threshold, so the scan finds exactly the two
length fields. -/
theorem heuristic_index_equals_sequential_witness :
    ((⟨1000, 2, 0, 0⟩ : Header).nb_streamlines
        = ([⟨1, [1065353216, 1073741824, 1077936128], []⟩,
            ⟨2, [1065353216, 1073741824, 1077936128, 1084227584, 1086324736, 1088421888], []⟩]
          : List Record).length) ∧
    (∀ r ∈ ([⟨1, [1065353216, 1073741824, 1077936128], []⟩,
            ⟨2, [1065353216, 1073741824, 1077936128, 1084227584, 1086324736, 1088421888], []⟩]
          : List Record), wfRecord ⟨1000, 2, 0, 0⟩ r) ∧
    (∀ r ∈ ([⟨1, [1065353216, 1073741824, 1077936128], []⟩,
            ⟨2, [1065353216, 1073741824, 1077936128, 1084227584, 1086324736, 1088421888], []⟩]
          : List Record), 0 < r.npoints ∧ r.npoints < 100000) ∧
    (scanChunks (encodeFile [⟨1, [1065353216, 1073741824, 1077936128], []⟩,
            ⟨2, [1065353216, 1073741824, 1077936128, 1084227584, 1086324736, 1088421888], []⟩])).length
      = (⟨1000, 2, 0, 0⟩ : Header).nb_streamlines ∧
    (heuristicIndexNewer ⟨1000, 2, 0, 0⟩ (encodeFile [⟨1, [1065353216, 1073741824, 1077936128], []⟩,
            ⟨2, [1065353216, 1073741824, 1077936128, 1084227584, 1086324736, 1088421888], []⟩])).map
        (fun p => ((p.2 : Int), (p.1 : Int)))
      = seqIndex ⟨1000, 2, 0, 0⟩ (encodeFile [⟨1, [1065353216, 1073741824, 1077936128], []⟩,
            ⟨2, [1065353216, 1073741824, 1077936128, 1084227584, 1086324736, 1088421888], []⟩]) :=
  ⟨by decide, by decide, by decide, by decide,
    heuristic_index_equals_sequential ⟨1000, 2, 0, 0⟩ _ (by decide) (by decide) (by decide) (by decide)⟩

/-- **C1 counterexample**: a well-formed one-streamline file whose single
streamline has zero points.  The bulk scan finds 0 candidates — a count
different from `streamline_count = 1` — yet no fallback happens: the
returned length index is the empty candidate list, which differs from the
sequential strategy's index `[0]`. -/
theorem heuristic_small_count_no_fallback :
    wfRecord ⟨1000, 1, 0, 0⟩ ⟨0, [], []⟩ ∧
    encodeFile [⟨0, [], []⟩] = [0] ∧
    (heuristicLengthsNN (encodeFile [⟨0, [], []⟩])).length
      ≠ (⟨1000, 1, 0, 0⟩ : Header).nb_streamlines ∧
    lengthsNN ⟨1000, 1, 0, 0⟩ (encodeFile [⟨0, [], []⟩])
      ≠ seqLengthsBufAux ⟨1000, 1, 0, 0⟩ (encodeFile [⟨0, [], []⟩]) 1 0 := by
  refine ⟨by decide, by decide, by decide, by decide⟩

lemma seqLengthsBufAux_append (h : Header) (pre ws : List Nat) :
    ∀ (k pos : Nat), seqLengthsBufAux h (pre ++ ws) k (pre.length + pos)
      = seqLengthsBufAux h ws k pos := by
  intro k
  induction k with
  | zero => intro pos; rfl
  | succ n ih =>
    intro pos
    have hget : (pre ++ ws).getD (pre.length + pos) 0 = ws.getD pos 0 := by
      rw [List.getD_eq_getElem?_getD, List.getD_eq_getElem?_getD,
        List.getElem?_append_right (by omega)]
      have hsub : pre.length + pos - pre.length = pos := by omega
      rw [hsub]
    simp only [seqLengthsBufAux, hget]
    rw [show pre.length + pos + 1 + (ws.getD pos 0 * point_size h + h.nb_properties)
        = pre.length + (pos + 1 + (ws.getD pos 0 * point_size h + h.nb_properties)) by omega]
    exact congrArg _ (ih _)

lemma seqLengthsBufAux_encodeFile (h : Header) :
    ∀ (rs : List Record), (∀ r ∈ rs, wfRecord h r) →
      seqLengthsBufAux h (encodeFile rs) rs.length 0 = rs.map (fun r => r.npoints) := by
  intro rs
  induction rs with
  | nil => intro _; rfl
  | cons r rest ih =>
    intro hwf
    have hr : wfRecord h r := hwf r (List.mem_cons_self r rest)
    have hhead : (encodeFile (r :: rest)).getD 0 0 = r.npoints := by
      rw [encodeFile_cons]; simp [encodeRecord]
    simp only [List.length_cons, seqLengthsBufAux, hhead]
    have hpos : 0 + 1 + (r.npoints * point_size h + h.nb_properties) = (encodeRecord r).length + 0 := by
      rw [length_encodeRecord h r hr]; omega
    rw [hpos, encodeFile_cons, seqLengthsBufAux_append]
    rw [ih (fun x hx => hwf x (List.mem_cons_of_mem r hx))]
    simp

/-- **C1 amended**: the fallback triggers exactly when the candidate count
strictly exceeds `streamline_count` — in that case the sequential walk's
index is produced, and on a well-formed file it equals the declared point
counts.  A candidate count smaller than `streamline_count` does not
trigger the fallback (see the counterexample theorem): the candidate list
itself is returned. -/
theorem heuristic_over_count_falls_back (h : Header) (rs : List Record)
    (hn : h.nb_streamlines = rs.length)
    (hwf : ∀ r ∈ rs, wfRecord h r)
    (hover : h.nb_streamlines < (heuristicLengthsNN (encodeFile rs)).length) :
    lengthsNN h (encodeFile rs) = seqLengthsBufAux h (encodeFile rs) h.nb_streamlines 0 ∧
    seqLengthsBufAux h (encodeFile rs) h.nb_streamlines 0 = rs.map (fun r => r.npoints) := by
  constructor
  · unfold lengthsNN
    rw [if_pos hover]
  · rw [hn]
    exact seqLengthsBufAux_encodeFile h rs hwf

/-- Witness for the amended C1: a one-streamline file whose first data word
(5) is a false-positive candidate, so the scan finds 2 > 1 candidates and
the fallback produces the true length index `[1]`. -/
theorem heuristic_over_count_falls_back_witness :
    ((⟨1000, 1, 0, 0⟩ : Header).nb_streamlines
      = ([⟨1, [5, 1065353216, 1073741824], []⟩] : List Record).length) ∧
    (∀ r ∈ ([⟨1, [5, 1065353216, 1073741824], []⟩] : List Record), wfRecord ⟨1000, 1, 0, 0⟩ r) ∧
    (⟨1000, 1, 0, 0⟩ : Header).nb_streamlines
      < (heuristicLengthsNN (encodeFile [⟨1, [5, 1065353216, 1073741824], []⟩])).length ∧
    (lengthsNN ⟨1000, 1, 0, 0⟩ (encodeFile [⟨1, [5, 1065353216, 1073741824], []⟩])
        = seqLengthsBufAux ⟨1000, 1, 0, 0⟩ (encodeFile [⟨1, [5, 1065353216, 1073741824], []⟩])
            (⟨1000, 1, 0, 0⟩ : Header).nb_streamlines 0 ∧
      seqLengthsBufAux ⟨1000, 1, 0, 0⟩ (encodeFile [⟨1, [5, 1065353216, 1073741824], []⟩])
          (⟨1000, 1, 0, 0⟩ : Header).nb_streamlines 0
        = ([⟨1, [5, 1065353216, 1073741824], []⟩] : List Record).map (fun r => r.npoints)) :=
  ⟨by decide, by decide, by decide,
    heuristic_over_count_falls_back ⟨1000, 1, 0, 0⟩ _ (by decide) (by decide) (by decide)⟩

lemma length_readRow (file : List ℚ) (off ps : Nat) : (readRow file off ps).length = ps := by
  simp only [readRow, List.length_take, List.length_append, List.length_replicate]
  omega

lemma readRows_row_length (file : List ℚ) :
    ∀ (n off ps : Nat), ∀ row ∈ readRows file off ps n, row.length = ps := by
  intro n
  induction n with
  | zero => intro off ps row hrow; simp [readRows] at hrow
  | succ k ih =>
    intro off ps row hrow
    simp only [readRows, List.mem_cons] at hrow
    rcases hrow with h1 | h2
    · rw [h1]; exact length_readRow file off ps
    · exact ih (off + ps) ps row h2

lemma extractOneNew_false_row_length (h : Header) (A : Affine) (file : List ℚ)
    (lengths idxBytes : List Nat) (idx : Nat) :
    ∀ row ∈ extractOneNew h A false file lengths idxBytes idx, row.length = 3 := by
  intro row hrow
  unfold extractOneNew at hrow
  simp only [Bool.false_eq_true, if_false] at hrow
  by_cases hs : 0 < h.nb_scalars
  · rw [if_pos hs] at hrow
    obtain ⟨row0, hrow0, hr⟩ := List.mem_map.mp hrow
    have hlen0 := readRows_row_length file _ _ _ row0 hrow0
    rw [← hr, List.length_take, hlen0]
    simp only [point_size]
    omega
  · rw [if_neg hs] at hrow
    have hlen0 := readRows_row_length file _ _ _ row hrow
    rw [hlen0]
    simp only [point_size]
    omega

lemma affineRow_id (r : List ℚ) (hr : r.length = 3) : affineRow identityAffine r = r := by
  match r, hr with
  | [a, b, c], _ =>
    simp [affineRow, identityAffine]

lemma extractOneNew_identity (h : Header) (file : List ℚ)
    (lengths idxBytes : List Nat) (idx : Nat) :
    extractOneNew h identityAffine true file lengths idxBytes idx
      = extractOneNew h identityAffine false file lengths idxBytes idx := by
  have hrows := extractOneNew_false_row_length h identityAffine file lengths idxBytes idx
  have hmap : extractOneNew h identityAffine true file lengths idxBytes idx
      = (extractOneNew h identityAffine false file lengths idxBytes idx).map
          (affineRow identityAffine) := rfl
  rw [hmap]
  conv_rhs => rw [← List.map_id (extractOneNew h identityAffine false file lengths idxBytes idx)]
  apply List.map_congr_left
  intro row hrow
  exact affineRow_id row (hrows row hrow)

/-- **C9**: extraction with `apply_affine = true` transforms every point of
every returned streamline by `p ↦ R·p + t` (`R` the leading 3×3 block,
`t` the translation column); in particular, with the 4×4 identity affine
the extraction result equals extraction with `apply_affine = false` on the
same file and requested ids. -/
theorem affine_identity_extraction (h : Header) (file : List ℚ)
    (lengths idxBytes : List Nat) (idxs : List Nat) (A : Affine) :
    extractNewList h A true file lengths idxBytes idxs
      = (extractNewList h A false file lengths idxBytes idxs).map (List.map (affineRow A)) ∧
    extractNewList h identityAffine true file lengths idxBytes idxs
      = extractNewList h identityAffine false file lengths idxBytes idxs := by
  constructor
  · unfold extractNewList
    rw [List.map_map]
    rfl
  · unfold extractNewList
    apply List.map_congr_left
    intro idx _
    exact extractOneNew_identity h file lengths idxBytes idx

/-- **C4 (code bug)**: on a two-streamline file with `requested_ids = [1]`,
the extraction of `load_trk_newer.py` returns TWO streamlines — one per
file streamline, the requested streamline's points landing in output slot
0 and uninitialized data in slot 1 — instead of exactly one streamline per
requested occurrence; `load_trk_new.py` returns the single requested
streamline. -/
theorem newer_extraction_breaks_request_order :
    extractNewer ⟨1000, 2, 0, 0⟩ (List.replicate 250 0 ++ [99, 1, 2, 3, 99, 4, 5, 6])
        [1, 1] [1004, 1020] [1]
      = [[[4, 5, 6]], [[0, 0, 0]]] ∧
    (extractNewer ⟨1000, 2, 0, 0⟩ (List.replicate 250 0 ++ [99, 1, 2, 3, 99, 4, 5, 6])
        [1, 1] [1004, 1020] [1]).length ≠ ([1] : List Nat).length ∧
    extractNewList ⟨1000, 2, 0, 0⟩ identityAffine false
        (List.replicate 250 0 ++ [99, 1, 2, 3, 99, 4, 5, 6]) [1, 1] [1004, 1020] [1]
      = [[[4, 5, 6]]] := by
  refine ⟨by decide, by decide, by decide⟩

/-- **C6 (code bug)**: with one scalar per point and a streamline of 3
points, `load_trk_no_numba.py` returns a 4×3 matrix interleaving the
scalar values (10, 11, 12) with the coordinates instead of dropping them,
while `load_trk_new.py` returns the 3×3 coordinate matrix with the scalar
column removed. -/
theorem no_numba_extraction_returns_scalars :
    extractOneNN ⟨1000, 1, 1, 0⟩ [99, 1, 2, 3, 10, 4, 5, 6, 11, 7, 8, 9, 12] [3] 0
      = some [[1, 2, 3], [10, 4, 5], [6, 11, 7], [8, 9, 12]] ∧
    extractOneNew ⟨1000, 1, 1, 0⟩ identityAffine false
        (List.replicate 250 0 ++ [99, 1, 2, 3, 10, 4, 5, 6, 11, 7, 8, 9, 12]) [3] [1004] 0
      = [[1, 2, 3], [4, 5, 6], [7, 8, 9]] := by
  refine ⟨by decide, by decide⟩

/-- **C7 (code bug)**: with 2 streamlines, `Sample(3, with_replacement=false)`
prints the warning announcing sampling with replacement but still passes
`replace=False` to `np.random.choice`, which raises — the load fails
instead of proceeding with replacement, whatever the random draw. -/
theorem oversample_without_replacement_fails (draw : List Nat) :
    resolve_idxs ⟨1000, 2, 0, 0⟩ false draw (.sample 3)
      = (true, .error "ValueError: cannot take a larger sample than population") := by
  rfl

/-- **C8 counterexample**: requested id `-1` lies outside
`[0, streamline_count)`, yet on a two-streamline file extraction does not
fail: numpy wrap-around indexing silently resolves it to streamline 1 and
returns that streamline's points. -/
theorem negative_id_not_rejected :
    extractChecked ⟨1000, 2, 0, 0⟩ (List.replicate 250 0 ++ [99, 1, 2, 3, 99, 4, 5, 6])
        [1, 1] [1004, 1020] [-1]
      = .ok [[[4, 5, 6]]] := by
  rfl

/-- **C8 amended**: a requested id `i` with `i ≥ streamline_count` or
`i < -streamline_count` fails with `IndexError` before any payload read —
the error does not depend on the file content; and with
`streamline_count = 0` the sequential length index is empty and an `All`
request yields an empty result.  (Ids in `[-streamline_count, 0)` are NOT
rejected: numpy indexing wraps them around, see the counterexample.) -/
theorem out_of_range_id_fails (h : Header) (file : List ℚ) (words : List Nat)
    (lengths idxBytes : List Int) (i : Int) (rest : List Int) :
    (idxBytes.length = lengths.length →
      ((lengths.length : Int) ≤ i ∨ i < -(lengths.length : Int)) →
      extractChecked h file lengths idxBytes (i :: rest)
        = .error "IndexError: index out of bounds") ∧
    (h.nb_streamlines = 0 →
      seqLengths h words = [] ∧
      extractChecked h file lengths idxBytes (allIds h.nb_streamlines) = .ok []) := by
  constructor
  · intro hlen hout
    have hnone : npGet idxBytes i = none := by
      unfold npGet
      by_cases h0 : 0 ≤ i
      · rw [if_pos h0]
        apply List.getElem?_eq_none_iff.mpr
        omega
      · rw [if_neg h0, if_neg (by omega)]
    simp [extractChecked, hnone]
  · intro h0
    constructor
    · unfold seqLengths
      rw [h0]
      rfl
    · rw [h0]
      rfl

/-- Witness for the amended C8: with `streamline_count = 0` and empty
index arrays, requesting id 0 fails with `IndexError` and an `All` request
returns the empty result over an empty index. -/
theorem out_of_range_id_fails_witness :
    (([] : List Int).length = ([] : List Int).length) ∧
    ((((([] : List Int)).length : Int) ≤ (0 : Int)) ∨
      (0 : Int) < -((([] : List Int)).length : Int)) ∧
    ((⟨1000, 0, 0, 0⟩ : Header).nb_streamlines = 0) ∧
    extractChecked ⟨1000, 0, 0, 0⟩ [] [] [] [(0 : Int)]
      = .error "IndexError: index out of bounds" ∧
    seqLengths ⟨1000, 0, 0, 0⟩ [] = [] ∧
    extractChecked ⟨1000, 0, 0, 0⟩ [] [] []
        (allIds (⟨1000, 0, 0, 0⟩ : Header).nb_streamlines) = .ok [] := by
  refine ⟨rfl, by decide, rfl, ?_, ?_, ?_⟩
  · exact (out_of_range_id_fails ⟨1000, 0, 0, 0⟩ [] [] [] [] 0 []).1 rfl (by decide)
  · exact ((out_of_range_id_fails ⟨1000, 0, 0, 0⟩ [] [] [] [] 0 []).2 rfl).1
  · exact ((out_of_range_id_fails ⟨1000, 0, 0, 0⟩ [] [] [] [] 0 []).2 rfl).2

end LoadTrk
